import Mathlib

/-!
Verification of the `conduit-cookie` crate: the cookie-header parser
(`src/lib.rs`) and the signed session subsystem (`src/session.rs`).

Rust strings are modelled by their UTF-8 byte sequences (`List Nat`,
each byte `< 256`): a Rust `&str` *is* its byte slice, and
`str::from_utf8` is a validity-checked identity on bytes, so this
representation is exact.  A `HashMap<String, String>` is modelled as an
association list in the map's (arbitrary but fixed) iteration order,
with overwriting insert; distinct keys are an intrinsic invariant of the
hash map.  The `base64` library crate (standard alphabet, `=` padding)
is embedded concretely, since the codec's properties depend on it.
-/

namespace ConduitCookie

/-- A Rust `String`/`&str`, as its UTF-8 bytes. -/
abbrev Str := List Nat

/-- A Rust `HashMap<String, String>`, as an association list in iteration
order. -/
abbrev Smap := List (Str × Str)

/-- A UTF-8 continuation byte (`10xxxxxx`). -/
def utf8Cont (b : Nat) : Bool := 0x80 ≤ b ∧ b ≤ 0xBF

/-- UTF-8 validity of a byte sequence, exactly the condition under which
`str::from_utf8` succeeds (well-formed sequences, overlong encodings and
surrogates rejected). -/
def utf8Valid : List Nat → Bool
  | [] => true
  | b :: rest =>
    if b ≤ 0x7F then utf8Valid rest
    else if 0xC2 ≤ b ∧ b ≤ 0xDF then
      match rest with
      | c :: r => utf8Cont c && utf8Valid r
      | [] => false
    else if b = 0xE0 then
      match rest with
      | c :: d :: r => (0xA0 ≤ c && c ≤ 0xBF) && utf8Cont d && utf8Valid r
      | _ => false
    else if (0xE1 ≤ b ∧ b ≤ 0xEC) ∨ (0xEE ≤ b ∧ b ≤ 0xEF) then
      match rest with
      | c :: d :: r => utf8Cont c && utf8Cont d && utf8Valid r
      | _ => false
    else if b = 0xED then
      match rest with
      | c :: d :: r => (0x80 ≤ c && c ≤ 0x9F) && utf8Cont d && utf8Valid r
      | _ => false
    else if b = 0xF0 then
      match rest with
      | c :: d :: e :: r =>
        (0x90 ≤ c && c ≤ 0xBF) && utf8Cont d && utf8Cont e && utf8Valid r
      | _ => false
    else if 0xF1 ≤ b ∧ b ≤ 0xF3 then
      match rest with
      | c :: d :: e :: r => utf8Cont c && utf8Cont d && utf8Cont e && utf8Valid r
      | _ => false
    else if b = 0xF4 then
      match rest with
      | c :: d :: e :: r =>
        (0x80 ≤ c && c ≤ 0x8F) && utf8Cont d && utf8Cont e && utf8Valid r
      | _ => false
    else false

/-- The standard base64 alphabet: the character (ASCII code) for a sextet. -/
def b64char (n : Nat) : Nat :=
  if n < 26 then 65 + n
  else if n < 52 then 97 + (n - 26)
  else if n < 62 then 48 + (n - 52)
  else if n = 62 then 43
  else 47

/-- Inverse of the standard base64 alphabet; `none` on a character outside
the alphabet (including the pad character `=`). -/
def b64val (c : Nat) : Option Nat :=
  if 65 ≤ c ∧ c ≤ 90 then some (c - 65)
  else if 97 ≤ c ∧ c ≤ 122 then some (26 + (c - 97))
  else if 48 ≤ c ∧ c ≤ 57 then some (52 + (c - 48))
  else if c = 43 then some 62
  else if c = 47 then some 63
  else none

/-- `base64::encode` (standard alphabet with `=` padding): three bytes become
four alphabet characters; a final remainder of one or two bytes is encoded
and padded with `=` (ASCII 61) to a four-character block. -/
def b64encode : List Nat → List Nat
  | a :: b :: c :: rest =>
    b64char (a / 4) :: b64char (a % 4 * 16 + b / 16) ::
      b64char (b % 16 * 4 + c / 64) :: b64char (c % 64) :: b64encode rest
  | [a, b] => [b64char (a / 4), b64char (a % 4 * 16 + b / 16), b64char (b % 16 * 4), 61]
  | [a] => [b64char (a / 4), b64char (a % 4 * 16), 61, 61]
  | [] => []

/-- Strip trailing `=` pad characters before decoding. -/
def dropTrailingEq (cs : List Nat) : List Nat :=
  (cs.reverse.dropWhile (fun c => c = 61)).reverse

/-- Decode a padding-stripped base64 character sequence: full four-character
blocks yield three bytes, a final block of three characters yields two bytes,
of two characters one byte; a dangling single character or any character
outside the alphabet is an error. -/
def b64decodeCore : List Nat → Option (List Nat)
  | c1 :: c2 :: c3 :: c4 :: rest =>
    match b64val c1, b64val c2, b64val c3, b64val c4, b64decodeCore rest with
    | some s1, some s2, some s3, some s4, some tl =>
      some ((s1 * 4 + s2 / 16) :: (s2 % 16 * 16 + s3 / 4) :: (s3 % 4 * 64 + s4) :: tl)
    | _, _, _, _, _ => none
  | [c1, c2, c3] =>
    match b64val c1, b64val c2, b64val c3 with
    | some s1, some s2, some s3 => some [s1 * 4 + s2 / 16, s2 % 16 * 16 + s3 / 4]
    | _, _, _ => none
  | [c1, c2] =>
    match b64val c1, b64val c2 with
    | some s1, some s2 => some [s1 * 4 + s2 / 16]
    | _, _ => none
  | [_] => none
  | [] => some []

/-- `base64::decode`: total, returns `none` on malformed input. -/
def b64decode (cs : List Nat) : Option (List Nat) :=
  b64decodeCore (dropTrailingEq cs)

/-- `HashMap::insert`: overwrite the entry for `k` in place if present,
otherwise append a new entry. -/
def hmInsert (m : Smap) (k v : Str) : Smap :=
  if m.any (fun p => p.1 = k) then m.map (fun p => if p.1 = k then (k, v) else p)
  else m ++ [(k, v)]

/-- `HashMap::get`. -/
def hmLookup (m : Smap) (k : Str) : Option Str :=
  (m.find? (fun p => p.1 = k)).map (fun p => p.2)

/-- The session middleware of `src/session.rs`: a cookie name and a
`secure` flag (the signing key itself lives in the external `cookie`
crate and is not consulted by the code modelled here). -/
structure SessionMiddleware where
  cookie_name : String
  secure : Bool

namespace SessionMiddleware

/-- The serialized pair buffer built by `SessionMiddleware::encode`'s loop:
`k₁ 0xFF v₁ 0xFF k₂ 0xFF v₂ …` (a `0xFF` separator before every pair except
the first, and one between each key and its value). -/
def pairsBytes : Smap → List Nat
  | [] => []
  | [(k, v)] => k ++ 0xff :: v
  | (k, v) :: p :: rest => k ++ 0xff :: (v ++ 0xff :: pairsBytes (p :: rest))

/-- How many `0xFF` pad bytes `encode`'s `while ret.len() * 8 % 6 != 0`
loop appends to a buffer of length `n`. -/
def padLen (n : Nat) : Nat := (3 - n % 3) % 3

/-- The pair buffer after `encode`'s padding loop. -/
def padFF (bs : List Nat) : List Nat :=
  bs ++ List.replicate (padLen bs.length) 0xff

/-- `SessionMiddleware::encode`: serialize the pairs, pad with `0xFF` until
the bit length is divisible by 6, and base64-encode. -/
def encode (h : Smap) : List Nat :=
  b64encode (padFF (pairsBytes h))

/-- The `while let (Some(key), Some(value)) = (parts.next(), parts.next())`
loop of `SessionMiddleware::decode`: consume the `0xFF`-split segments two at
a time, stop at an empty key, insert a pair only when both segments are valid
UTF-8. -/
def sessLoop : List (List Nat) → Smap → Smap
  | k :: v :: rest, acc =>
    if k = [] then acc
    else sessLoop rest (if utf8Valid k && utf8Valid v then hmInsert acc k v else acc)
  | _, acc => acc

/-- `SessionMiddleware::decode`: base64-decode the cookie value (an empty
buffer on failure), split on `0xFF`, and run the consumption loop on an
empty map. -/
def decode (cs : List Nat) : Smap :=
  sessLoop (((b64decode cs).getD []).splitOn 0xff) []

/-- The (key, value) segment pairs actually consumed by `sessLoop`:
two segments at a time, cut off at the first empty key (or when fewer
than two segments remain). -/
def consumedPairs : List (List Nat) → List (Str × Str)
  | k :: v :: rest => if k = [] then [] else (k, v) :: consumedPairs rest
  | _ => []

/-- The consumed pairs that pass the UTF-8 check and are inserted. -/
def consumedValid (cs : List Nat) : List (Str × Str) :=
  (consumedPairs (((b64decode cs).getD []).splitOn 0xff)).filter
    (fun p => utf8Valid p.1 && utf8Valid p.2)

end SessionMiddleware

/-- `cookie::SameSite`. -/
inductive SameSitePolicy
  | strict
  | lax
  | noneSite
deriving DecidableEq, Repr

/-- `time::Duration::days(d)`, in seconds. -/
def durationDays (d : Int) : Int := d * 86400

/-- A cookie as built by `Cookie::build(..).finish()` in
`SessionMiddleware::after`: name, value and the attributes that builder
sets. -/
structure CookieRec where
  name : String
  value : List Nat
  http_only : Bool
  secure : Bool
  same_site : SameSitePolicy
  max_age : Int
  path : String
deriving DecidableEq, Repr

/-- The `Session` request extension of `src/session.rs`. -/
structure Session where
  data : Smap
  dirty : Bool
deriving DecidableEq, Repr

/-- The per-request state the session middleware touches: the optional
`Session` in the request's extension storage, and the log of cookies written
through the signed view of the cookie jar (`cookies_mut().signed_mut(key)`),
which the external `cookie` crate signs and stores. -/
structure ReqState where
  sessionExt : Option Session
  signedWrites : List CookieRec
deriving DecidableEq, Repr

namespace SessionMiddleware

/-- `SessionMiddleware::before`: read the named cookie through the signed
jar view (`signedGet` is that view's result — `none` when the cookie is
absent or its signature fails verification, per the external crate's
contract), decode it or start empty, and attach the `Session` with
`dirty = false`. -/
def before (_mw : SessionMiddleware) (signedGet : Option (List Nat))
    (st : ReqState) : ReqState :=
  { st with sessionExt := some { data := (signedGet.map decode).getD [], dirty := false } }

/-- `SessionMiddleware::after`: look up the `Session`
(`.expect("session must be present after request")` — a panic, modelled as
`none`, when absent); when dirty, build the session cookie with the fixed
attribute set and add it through the signed view; return the handler result
unchanged. -/
def after {α : Type} (mw : SessionMiddleware) (st : ReqState) (res : α) :
    Option (ReqState × α) :=
  match st.sessionExt with
  | Option.none => Option.none
  | some session =>
    if session.dirty then
      some ({ st with signedWrites := st.signedWrites ++
        [{ name := mw.cookie_name
           value := encode session.data
           http_only := true
           secure := mw.secure
           same_site := SameSitePolicy.strict
           max_age := durationDays 90
           path := "/" }] }, res)
    else some (st, res)

end SessionMiddleware

/-- `RequestSession::session`: a shared borrow — returns the session map and
(by its `&self` type) cannot change any request state; panics (`none`) when
no `Session` is attached. -/
def session (st : ReqState) : Option (ReqState × Smap) :=
  st.sessionExt.map (fun s => (st, s.data))

/-- `RequestSession::session_mut`: sets `dirty = true` unconditionally and
returns the (unchanged) map for the caller to mutate; panics (`none`) when no
`Session` is attached. -/
def session_mut (st : ReqState) : Option (ReqState × Smap) :=
  st.sessionExt.map
    (fun s => ({ st with sessionExt := some { s with dirty := true } }, s.data))

/-- `parse_pair` of `src/lib.rs`: find the first `=`; the name is the text
before it and the value the text after it, each with surrounding whitespace
trimmed; `none` when the segment has no `=`. -/
def parse_pair (kv : List Char) : Option (List Char × List Char) :=
  (kv.findIdx? (fun c => c = '=')).map
    (fun i => (trimWS (kv.take i), trimWS (kv.drop (i + 1))))
where
  /-- `str::trim`: drop whitespace from both ends. -/
  trimWS (s : List Char) : List Char :=
    ((s.dropWhile Char.isWhitespace).reverse.dropWhile Char.isWhitespace).reverse

/-- The pairs `Middleware::before` adds to the jar from one `Cookie` header
value: split on `;`, keep each segment `parse_pair` accepts. -/
def parseCookieHeader (hv : List Char) : List (List Char × List Char) :=
  (hv.splitOn ';').filterMap parse_pair

/-- A response as `Middleware::after` sees it: a header map
(`HashMap<String, Vec<String>>`) as an association list. -/
structure Response where
  headers : List (String × List String)
deriving DecidableEq, Repr

/-- `headers.entry("Set-Cookie").or_insert(Vec::new())` followed by pushing
each delta string: extend the existing `Set-Cookie` entry in place, or append
a fresh one. -/
def pushSetCookies (headers : List (String × List String)) (delta : List String) :
    List (String × List String) :=
  if headers.any (fun p => p.1 = "Set-Cookie") then
    headers.map (fun p => if p.1 = "Set-Cookie" then (p.1, p.2 ++ delta) else p)
  else headers ++ [("Set-Cookie", delta)]

/-- Header lookup by name. -/
def headerGet (headers : List (String × List String)) (n : String) :
    Option (List String) :=
  (headers.find? (fun p => p.1 = n)).map (fun p => p.2)

/-- The outer cookie `Middleware` of `src/lib.rs` (a unit struct); the cookie
jar is carried separately as the `delta` the external jar reports. -/
structure Middleware where
deriving DecidableEq, Repr

/-- `Middleware::after`: `let mut res = res?;` propagates a handler failure
unchanged before the jar is consulted; on success, push one `Set-Cookie`
header string per jar delta entry. -/
def Middleware.after {E : Type} (_mw : Middleware) (jarDelta : List String)
    (res : Except E Response) : Except E Response :=
  match res with
  | Except.error e => Except.error e
  | Except.ok r => Except.ok { r with headers := pushSetCookies r.headers jarDelta }

/-- The `0xFF`-split segments a map serializes to: keys and values
alternating, in pair order. -/
def segsOf : Smap → List (List Nat)
  | [] => []
  | (k, v) :: rest => k :: v :: segsOf rest

/-- List recursion two elements at a time (the shape of `sessLoop` and
`consumedPairs`). -/
def twoStepList {α : Type} {motive : List α → Sort v} (h0 : motive [])
    (h1 : ∀ a, motive [a]) (h2 : ∀ a b l, motive l → motive (a :: b :: l)) :
    ∀ l, motive l
  | [] => h0
  | [a] => h1 a
  | a :: b :: l => h2 a b l (twoStepList h0 h1 h2 l)

/-- List recursion three elements at a time (the shape of `b64encode`). -/
def threeStepList {α : Type} {motive : List α → Sort v} (h0 : motive [])
    (h1 : ∀ a, motive [a]) (h2 : ∀ a b, motive [a, b])
    (h3 : ∀ a b c l, motive l → motive (a :: b :: c :: l)) : ∀ l, motive l
  | [] => h0
  | [a] => h1 a
  | [a, b] => h2 a b
  | a :: b :: c :: l => h3 a b c l (threeStepList h0 h1 h2 h3 l)

/-! ## Theorems -/

/-- Claim C5: in `SessionMiddleware::before`, when the signed view yields
nothing (cookie absent, or its signature failed verification) the attached
`Session` has an empty map and `dirty = false`; when it yields a verified
cookie value the attached `Session` holds the decoded map and
`dirty = false`; the hook is a total function (no crash on forged input)
and touches nothing else. -/
theorem before_attaches_session (mw : SessionMiddleware) (st : ReqState) :
    ((SessionMiddleware.before mw Option.none st).sessionExt
        = some { data := [], dirty := false }
      ∧ (SessionMiddleware.before mw Option.none st).signedWrites = st.signedWrites)
    ∧ ∀ cv : List Nat,
      (SessionMiddleware.before mw (some cv) st).sessionExt
          = some { data := SessionMiddleware.decode cv, dirty := false }
        ∧ (SessionMiddleware.before mw (some cv) st).signedWrites = st.signedWrites := by
  refine ⟨⟨?_, ?_⟩, fun cv => ⟨?_, ?_⟩⟩ <;> simp [SessionMiddleware.before]

/-- Claim C2: in `SessionMiddleware::after`, a clean session writes no
cookie, and a dirty session writes exactly one cookie through the signed
view, named by the configuration, valued with the encoded map, and carrying
`http_only = true`, the configured `secure` flag, `SameSite::Strict`,
a 90-day max-age and path `/`; the handler result is returned unchanged. -/
theorem after_writes_iff_dirty {α : Type} (mw : SessionMiddleware)
    (st : ReqState) (res : α) (s : Session) (hs : st.sessionExt = some s) :
    (s.dirty = false → SessionMiddleware.after mw st res = some (st, res))
    ∧ (s.dirty = true → SessionMiddleware.after mw st res =
        some ({ st with signedWrites := st.signedWrites ++
          [{ name := mw.cookie_name
             value := SessionMiddleware.encode s.data
             http_only := true
             secure := mw.secure
             same_site := SameSitePolicy.strict
             max_age := durationDays 90
             path := "/" }] }, res)) := by
  constructor <;> intro hd <;> simp [SessionMiddleware.after, hs, hd]

/-- Witness for `after_writes_iff_dirty` at a concrete dirty state. -/
theorem after_writes_iff_dirty_witness :
    (ReqState.mk (some (Session.mk [] true)) []).sessionExt
        = some (Session.mk [] true)
    ∧ SessionMiddleware.after (SessionMiddleware.mk "lol" false)
        (ReqState.mk (some (Session.mk [] true)) []) (0 : Nat)
      = some (ReqState.mk (some (Session.mk [] true))
          [CookieRec.mk "lol" [] true false SameSitePolicy.strict 7776000 "/"], 0) :=
  ⟨rfl, (after_writes_iff_dirty (SessionMiddleware.mk "lol" false)
    (ReqState.mk (some (Session.mk [] true)) []) 0 (Session.mk [] true) rfl).2 rfl⟩

/-- Claim C3: with a `Session` attached, `session` returns the map and
leaves the request state (dirty flag included) unchanged, while
`session_mut` unconditionally sets `dirty = true` and returns the map
unchanged, whether or not the caller goes on to mutate it. -/
theorem session_accessors_spec (st : ReqState) (s : Session)
    (hs : st.sessionExt = some s) :
    session st = some (st, s.data)
    ∧ session_mut st
        = some ({ st with sessionExt := some { data := s.data, dirty := true } },
            s.data) := by
  refine ⟨?_, ?_⟩ <;> simp [session, session_mut, hs]

/-- Witness for `session_accessors_spec` at a concrete clean state. -/
theorem session_accessors_spec_witness :
    (ReqState.mk (some (Session.mk [([97], [98])] false)) []).sessionExt
        = some (Session.mk [([97], [98])] false)
    ∧ session (ReqState.mk (some (Session.mk [([97], [98])] false)) [])
        = some (ReqState.mk (some (Session.mk [([97], [98])] false)) [],
            [([97], [98])])
    ∧ session_mut (ReqState.mk (some (Session.mk [([97], [98])] false)) [])
        = some (ReqState.mk (some (Session.mk [([97], [98])] true)) [],
            [([97], [98])]) := by
  have h := session_accessors_spec
    (ReqState.mk (some (Session.mk [([97], [98])] false)) [])
    (Session.mk [([97], [98])] false) rfl
  exact ⟨rfl, h.1, h.2⟩

/-- Claim C9: `SessionMiddleware::after` panics (modelled as `none`) exactly
when no `Session` is attached; with a `Session` attached it succeeds, and
since `before` always attaches one, the panic branch is unreachable whenever
`before` ran on the same request. -/
theorem after_missing_session_panics {α : Type} (mw : SessionMiddleware)
    (res : α) :
    (∀ st : ReqState, st.sessionExt = Option.none →
      SessionMiddleware.after mw st res = Option.none)
    ∧ (∀ (st : ReqState) (s : Session), st.sessionExt = some s →
        (SessionMiddleware.after mw st res).isSome = true)
    ∧ (∀ (sg : Option (List Nat)) (st : ReqState),
        (SessionMiddleware.after mw (SessionMiddleware.before mw sg st) res).isSome
          = true) := by
  refine ⟨fun st h => ?_, fun st s h => ?_, fun sg st => ?_⟩
  · simp [SessionMiddleware.after, h]
  · simp only [SessionMiddleware.after, h]
    cases s.dirty <;> simp
  · simp only [SessionMiddleware.after, SessionMiddleware.before]
    simp

/-- Witness for `after_missing_session_panics` at concrete states. -/
theorem after_missing_session_panics_witness :
    (ReqState.mk Option.none []).sessionExt = Option.none
    ∧ SessionMiddleware.after (SessionMiddleware.mk "lol" false)
        (ReqState.mk Option.none []) (0 : Nat) = Option.none
    ∧ (SessionMiddleware.after (SessionMiddleware.mk "lol" false)
        (SessionMiddleware.before (SessionMiddleware.mk "lol" false) Option.none
          (ReqState.mk Option.none [])) (0 : Nat)).isSome = true := by
  have h := after_missing_session_panics (SessionMiddleware.mk "lol" false) (0 : Nat)
  exact ⟨rfl, h.1 (ReqState.mk Option.none []) rfl,
    h.2.2 Option.none (ReqState.mk Option.none [])⟩

/-- Pushing delta strings leaves the first `Set-Cookie` entry holding its old
strings followed by the delta (creating the entry when absent). -/
theorem pushSetCookies_cons_ne (p : String × List String)
    (t : List (String × List String)) (d : List String)
    (hp : ¬ p.1 = "Set-Cookie") :
    pushSetCookies (p :: t) d = p :: pushSetCookies t d := by
  by_cases ht : t.any (fun q => q.1 = "Set-Cookie")
  · simp [pushSetCookies, hp, ht]
  · simp [pushSetCookies, hp, ht]

/-- `pushSetCookies` on a list whose head is the `Set-Cookie` entry extends
the head in place and maps over the tail. -/
theorem pushSetCookies_cons_eq (p : String × List String)
    (t : List (String × List String)) (d : List String)
    (hp : p.1 = "Set-Cookie") :
    pushSetCookies (p :: t) d
      = (p.1, p.2 ++ d) ::
          t.map (fun q => if q.1 = "Set-Cookie" then (q.1, q.2 ++ d) else q) := by
  simp [pushSetCookies, hp]

/-- Mapping the delta-extension over the entries changes no entry whose name
is not `Set-Cookie`, so lookups by any other name are unaffected. -/
theorem find?_map_extendSetCookie (t : List (String × List String))
    (d : List String) (n : String) (hn : ¬ n = "Set-Cookie") :
    List.find? (fun q => q.1 = n)
        (t.map (fun q => if q.1 = "Set-Cookie" then (q.1, q.2 ++ d) else q))
      = List.find? (fun q => q.1 = n) t := by
  induction t with
  | nil => rfl
  | cons q u ih =>
    by_cases hq : q.1 = "Set-Cookie"
    · have hqn : ¬ q.1 = n := by rw [hq]; exact fun h => hn h.symm
      rw [List.map_cons, if_pos hq]
      rw [List.find?_cons_of_neg _ (by simpa using hqn),
        List.find?_cons_of_neg _ (by simpa using hqn), ih]
    · rw [List.map_cons, if_neg hq]
      by_cases hqn : q.1 = n
      · rw [List.find?_cons_of_pos _ (by simpa using hqn),
          List.find?_cons_of_pos _ (by simpa using hqn)]
      · rw [List.find?_cons_of_neg _ (by simpa using hqn),
          List.find?_cons_of_neg _ (by simpa using hqn), ih]

theorem headerGet_pushSetCookies (hs : List (String × List String))
    (d : List String) :
    headerGet (pushSetCookies hs d) "Set-Cookie"
      = some ((headerGet hs "Set-Cookie").getD [] ++ d) := by
  induction hs with
  | nil => simp [headerGet, pushSetCookies]
  | cons p t ih =>
    by_cases hp : p.1 = "Set-Cookie"
    · simp [headerGet, pushSetCookies, hp]
    · rw [pushSetCookies_cons_ne p t d hp]
      simpa [headerGet, hp] using ih

/-- Pushing delta strings onto the `Set-Cookie` entry leaves every other
header name untouched. -/
theorem headerGet_pushSetCookies_ne (hs : List (String × List String))
    (d : List String) (n : String) (hn : ¬ n = "Set-Cookie") :
    headerGet (pushSetCookies hs d) n = headerGet hs n := by
  induction hs with
  | nil =>
    have hn' : ¬ "Set-Cookie" = n := fun h => hn h.symm
    simp [headerGet, pushSetCookies, hn']
  | cons p t ih =>
    by_cases hp : p.1 = "Set-Cookie"
    · have hne : ¬ p.1 = n := by rw [hp]; exact fun h => hn h.symm
      rw [pushSetCookies_cons_eq p t d hp]
      simp only [headerGet]
      rw [List.find?_cons_of_neg _ (by simpa using hne),
        List.find?_cons_of_neg _ (by simpa using hne),
        find?_map_extendSetCookie t d n hn]
    · rw [pushSetCookies_cons_ne p t d hp]
      by_cases hpn : p.1 = n
      · simp [headerGet, hpn]
      · simpa [headerGet, hpn] using ih

/-- Claim C8: the cookie `Middleware::after` returns a handler failure
unchanged without consulting the jar or touching headers, and on a
successful response appends the jar's delta strings to the `Set-Cookie`
header (creating it if absent) while leaving every other header unchanged. -/
theorem middleware_after_failure_propagation {E : Type} (mw : Middleware)
    (jarDelta : List String) :
    (∀ e : E, Middleware.after mw jarDelta (Except.error e) = Except.error e)
    ∧ ∀ r : Response, ∃ r' : Response,
        Middleware.after (E := E) mw jarDelta (Except.ok r) = Except.ok r'
        ∧ headerGet r'.headers "Set-Cookie"
            = some ((headerGet r.headers "Set-Cookie").getD [] ++ jarDelta)
        ∧ ∀ n : String, ¬ n = "Set-Cookie" →
            headerGet r'.headers n = headerGet r.headers n := by
  refine ⟨fun e => rfl, fun r => ⟨⟨pushSetCookies r.headers jarDelta⟩, rfl, ?_, ?_⟩⟩
  · exact headerGet_pushSetCookies r.headers jarDelta
  · exact fun n hn => headerGet_pushSetCookies_ne r.headers jarDelta n hn

/-- Witness for `middleware_after_failure_propagation` at a concrete error
and a concrete response. -/
theorem middleware_after_failure_propagation_witness :
    Middleware.after Middleware.mk ["a=b"] (Except.error "boom")
        = (Except.error "boom" : Except String Response)
    ∧ ∃ r' : Response,
        Middleware.after (E := String) Middleware.mk ["a=b"]
            (Except.ok (Response.mk [("X", ["y"])])) = Except.ok r'
        ∧ headerGet r'.headers "Set-Cookie"
            = some ((headerGet [("X", ["y"])] "Set-Cookie").getD [] ++ ["a=b"])
        ∧ ∀ n : String, ¬ n = "Set-Cookie" →
            headerGet r'.headers n = headerGet [("X", ["y"])] n := by
  have h := middleware_after_failure_propagation (E := String) Middleware.mk ["a=b"]
  exact ⟨h.1 "boom", h.2 (Response.mk [("X", ["y"])])⟩

/-- When a segment contains `=`, `find('=')` locates the first occurrence:
the slice before it is the longest `=`-free prefix and the slice after it is
the remainder past that first `=`. -/
theorem findIdx_eq_first (s : List Char) (h : '=' ∈ s) :
    ∃ i, s.findIdx? (fun c => c = '=') = some i
      ∧ s.take i = s.takeWhile (fun c => ¬ c = '=')
      ∧ s.drop (i + 1) = (s.dropWhile (fun c => ¬ c = '=')).tail := by
  induction s with
  | nil => cases h
  | cons c rest ih =>
    by_cases hc : c = '='
    · refine ⟨0, ?_, ?_, ?_⟩
      · simp [List.findIdx?_cons, hc]
      · simp [List.takeWhile_cons, hc]
      · simp [List.dropWhile_cons, hc]
    · have hrest : '=' ∈ rest := by
        cases List.mem_cons.mp h with
        | inl h' => exact absurd h'.symm hc
        | inr h' => exact h'
      obtain ⟨i, hfind, htake, hdrop⟩ := ih hrest
      refine ⟨i + 1, ?_, ?_, ?_⟩
      · simp [List.findIdx?_cons, hc, List.findIdx?_succ, hfind]
      · simp [List.take_succ_cons, List.takeWhile_cons, hc, htake]
      · simp [List.drop_succ_cons, List.dropWhile_cons, hc, hdrop]

/-- `parse_pair` in closed form: on a segment with an `=`, the trimmed text
on each side of the first `=`; on a segment without one, `none`. -/
theorem parse_pair_eq (seg : List Char) :
    parse_pair seg
      = if '=' ∈ seg then
          some (parse_pair.trimWS (seg.takeWhile (fun c => ¬ c = '=')),
            parse_pair.trimWS ((seg.dropWhile (fun c => ¬ c = '=')).tail))
        else none := by
  by_cases h : '=' ∈ seg
  · obtain ⟨i, hfind, htake, hdrop⟩ := findIdx_eq_first seg h
    simp [parse_pair, hfind, htake, hdrop, h]
  · have hnone : seg.findIdx? (fun c => c = '=') = none := by
      rw [List.findIdx?_eq_none_iff]
      intro x hx
      by_cases hxe : x = '='
      · exact absurd (hxe ▸ hx) h
      · simp [hxe]
    simp [parse_pair, hnone, h]

/-- Claim C7: `Middleware::before`'s parse of one `Cookie` header value
splits on `;`; each segment containing an `=` yields the pair
(text before the first `=`, text after it), each side whitespace-trimmed,
and each segment without an `=` is dropped silently. -/
theorem before_parses_pairs (hv : List Char) :
    parseCookieHeader hv
      = ((hv.splitOn ';').filter (fun seg => '=' ∈ seg)).map
          (fun seg => (parse_pair.trimWS (seg.takeWhile (fun c => ¬ c = '=')),
            parse_pair.trimWS ((seg.dropWhile (fun c => ¬ c = '=')).tail))) := by
  unfold parseCookieHeader
  generalize hv.splitOn ';' = segs
  induction segs with
  | nil => rfl
  | cons seg rest ih =>
    rw [List.filterMap_cons, parse_pair_eq seg]
    by_cases h : '=' ∈ seg
    · simp [h, ih]
    · simp [h, ih]

/-- The base64 alphabet never produces the pad character `=` (ASCII 61),
whatever the input. -/
theorem b64char_ne_eqchar (n : Nat) : ¬ b64char n = 61 := by
  unfold b64char
  split_ifs <;> omega

/-- Decoding inverts the alphabet on genuine sextets. -/
theorem b64val_b64char : ∀ n, n < 64 → b64val (b64char n) = some n := by decide

/-- A base64 encoding of a buffer whose length is divisible by 3 contains no
pad character at all. -/
theorem not_mem_eqchar_b64encode :
    ∀ bs : List Nat, bs.length % 3 = 0 → ¬ 61 ∈ b64encode bs := by
  intro bs
  induction bs using threeStepList with
  | h0 => intro _ h; simp [b64encode] at h
  | h1 a => intro h; simp at h
  | h2 a b => intro h; simp at h
  | h3 a b c rest ih =>
    intro hlen hmem
    have hrest : rest.length % 3 = 0 := by
      simp only [List.length_cons] at hlen; omega
    simp only [b64encode, List.mem_cons] at hmem
    rcases hmem with h | h | h | h | h
    · exact b64char_ne_eqchar _ h.symm
    · exact b64char_ne_eqchar _ h.symm
    · exact b64char_ne_eqchar _ h.symm
    · exact b64char_ne_eqchar _ h.symm
    · exact ih hrest h

/-- Stripping trailing pad characters is the identity on a string containing
none. -/
theorem dropTrailingEq_of_not_mem (cs : List Nat) (h : ¬ 61 ∈ cs) :
    dropTrailingEq cs = cs := by
  unfold dropTrailingEq
  have hd : cs.reverse.dropWhile (fun c => c = 61) = cs.reverse := by
    cases hrev : cs.reverse with
    | nil => rfl
    | cons a t =>
      have ha : a ∈ cs := by
        rw [← List.mem_reverse, hrev]; exact List.mem_cons_self a t
      have hne : ¬ a = 61 := fun he => h (he ▸ ha)
      simp [List.dropWhile_cons, hne]
  rw [hd, List.reverse_reverse]

/-- Core base64 inversion: decoding an encoded buffer of length divisible
by 3 recovers the buffer. -/
theorem b64decodeCore_b64encode :
    ∀ bs : List Nat, bs.length % 3 = 0 → (∀ x ∈ bs, x < 256) →
      b64decodeCore (b64encode bs) = some bs := by
  intro bs
  induction bs using threeStepList with
  | h0 => intro _ _; rfl
  | h1 a => intro h _; simp at h
  | h2 a b => intro h _; simp at h
  | h3 a b c rest ih =>
    intro hlen hlt
    have ha : a < 256 := hlt a (by simp)
    have hb : b < 256 := hlt b (by simp)
    have hc : c < 256 := hlt c (by simp)
    have hrest : rest.length % 3 = 0 := by
      simp only [List.length_cons] at hlen; omega
    have hltr : ∀ x ∈ rest, x < 256 := fun x hx =>
      hlt x (List.mem_cons_of_mem _ (List.mem_cons_of_mem _ (List.mem_cons_of_mem _ hx)))
    have hv1 : b64val (b64char (a / 4)) = some (a / 4) :=
      b64val_b64char _ (by omega)
    have hv2 : b64val (b64char (a % 4 * 16 + b / 16)) = some (a % 4 * 16 + b / 16) :=
      b64val_b64char _ (by omega)
    have hv3 : b64val (b64char (b % 16 * 4 + c / 64)) = some (b % 16 * 4 + c / 64) :=
      b64val_b64char _ (by omega)
    have hv4 : b64val (b64char (c % 64)) = some (c % 64) :=
      b64val_b64char _ (by omega)
    have e1 : a / 4 * 4 + (a % 4 * 16 + b / 16) / 16 = a := by omega
    have e2 : (a % 4 * 16 + b / 16) % 16 * 16 + (b % 16 * 4 + c / 64) / 4 = b := by omega
    have e3 : (b % 16 * 4 + c / 64) % 4 * 64 + c % 64 = c := by omega
    simp only [b64encode, b64decodeCore, hv1, hv2, hv3, hv4, ih hrest hltr,
      e1, e2, e3]

/-- Full base64 inversion for buffers of length divisible by 3 (the only
case the session codec produces, thanks to its `0xFF` padding). -/
theorem b64decode_b64encode (bs : List Nat) (hlen : bs.length % 3 = 0)
    (hlt : ∀ x ∈ bs, x < 256) : b64decode (b64encode bs) = some bs := by
  unfold b64decode
  rw [dropTrailingEq_of_not_mem _ (not_mem_eqchar_b64encode bs hlen)]
  exact b64decodeCore_b64encode bs hlen hlt

/-- The serialized pair buffer is the key/value segments interspersed with
single `0xFF` separators. -/
theorem pairsBytes_eq_intercalate :
    ∀ m : Smap, SessionMiddleware.pairsBytes m = List.intercalate [0xff] (segsOf m) := by
  intro m
  induction m with
  | nil => rfl
  | cons a t ih =>
    obtain ⟨k, v⟩ := a
    cases t with
    | nil => simp [SessionMiddleware.pairsBytes, segsOf, List.intercalate]
    | cons b rest =>
      obtain ⟨k2, v2⟩ := b
      simp only [SessionMiddleware.pairsBytes, segsOf, List.intercalate,
        List.intersperse_cons₂, List.flatten_cons] at ih ⊢
      rw [ih]
      simp

/-- Appending one empty segment to a nonempty segment list appends one
separator to the intercalation. -/
theorem intercalate_append_singleton_empty (x : Nat) :
    ∀ yss : List (List Nat), ¬ yss = [] →
      List.intercalate [x] (yss ++ [[]]) = List.intercalate [x] yss ++ [x] := by
  intro yss
  induction yss with
  | nil => intro h; exact absurd rfl h
  | cons a t ih =>
    intro _
    cases t with
    | nil => simp [List.intercalate]
    | cons b rest =>
      simp only [List.cons_append, List.intercalate, List.intersperse_cons₂,
        List.flatten_cons] at ih ⊢
      rw [ih (by simp)]
      simp

/-- Appending `p` empty segments to a nonempty segment list appends `p`
separators to the intercalation. -/
theorem intercalate_append_replicate_empty (x : Nat) (yss : List (List Nat))
    (h : ¬ yss = []) :
    ∀ p : Nat, List.intercalate [x] (yss ++ List.replicate p [])
      = List.intercalate [x] yss ++ List.replicate p x := by
  intro p
  induction p with
  | zero => simp
  | succ p ih =>
    rw [List.replicate_succ' (n := p), List.replicate_succ' (n := p),
      ← List.append_assoc, intercalate_append_singleton_empty x _ (by
        intro hx
        exact h (List.append_eq_nil.mp hx).1),
      ih, List.append_assoc]

/-- The padding loop's count: the padded bit length is divisible by 6, and
no smaller number of pad bytes achieves that (the exit condition of
`while ret.len() * 8 % 6 != 0`). -/
theorem padLen_while_spec (n : Nat) :
    (n + SessionMiddleware.padLen n) * 8 % 6 = 0
      ∧ ∀ q, q < SessionMiddleware.padLen n → ¬ (n + q) * 8 % 6 = 0 := by
  unfold SessionMiddleware.padLen
  constructor
  · omega
  · intro q hq
    omega

/-- The padded buffer's length is divisible by 3, so its base64 encoding is
exact. -/
theorem padFF_length_mod3 (bs : List Nat) :
    (SessionMiddleware.padFF bs).length % 3 = 0 := by
  simp only [SessionMiddleware.padFF, SessionMiddleware.padLen,
    List.length_append, List.length_replicate]
  omega

/-- Every byte of the serialized pair buffer is a genuine byte when the map's
strings consist of genuine bytes (`0xFF` separators included). -/
theorem pairsBytes_lt :
    ∀ m : Smap, (∀ q ∈ m, (∀ b ∈ q.1, b < 256) ∧ (∀ b ∈ q.2, b < 256)) →
      ∀ x ∈ SessionMiddleware.pairsBytes m, x < 256 := by
  intro m
  induction m with
  | nil => intro _ x hx; simp [SessionMiddleware.pairsBytes] at hx
  | cons a t ih =>
    obtain ⟨k, v⟩ := a
    cases t with
    | nil =>
      intro hq x hx
      have hk := hq (k, v) (by simp)
      simp only [SessionMiddleware.pairsBytes, List.mem_append, List.mem_cons] at hx
      rcases hx with h | h | h
      · exact hk.1 x h
      · omega
      · exact hk.2 x h
    | cons b rest =>
      intro hq x hx
      have hk := hq (k, v) (by simp)
      simp only [SessionMiddleware.pairsBytes, List.mem_append, List.mem_cons] at hx
      rcases hx with h | h | h | h | h
      · exact hk.1 x h
      · omega
      · exact hk.2 x h
      · omega
      · exact ih (fun q hmem => hq q (List.mem_cons_of_mem _ hmem)) x h

/-- Overwriting insert: looking up the inserted key yields the new value. -/
theorem hmLookup_hmInsert_self : ∀ (m : Smap) (k v : Str),
    hmLookup (hmInsert m k v) k = some v := by
  intro m k v
  unfold hmInsert
  by_cases hany : m.any (fun p => p.1 = k) = true
  · rw [if_pos hany, hmLookup]
    induction m with
    | nil => simp at hany
    | cons q t ih =>
      by_cases hq : q.1 = k
      · simp [hq]
      · simp only [List.any_cons, hq] at hany
        simp only [List.map_cons, if_neg hq]
        rw [List.find?_cons_of_neg _ (by simpa using hq)]
        exact ih (by simpa [hq] using hany)
  · rw [if_neg hany, hmLookup, List.find?_append]
    have hnone : List.find? (fun p => p.1 = k) m = none := by
      rw [List.find?_eq_none]
      intro x hx
      simp only [decide_eq_true_eq]
      exact fun hxe => hany (List.any_eq_true.mpr ⟨x, hx, by simp [hxe]⟩)
    simp [hnone]

/-- Overwriting the entries keyed `k` in place changes no lookup by a
different key. -/
theorem find?_map_overwrite_ne (k v k' : Str) (h : ¬ k' = k) :
    ∀ t : List (Str × Str),
      List.find? (fun p => p.1 = k')
          (t.map (fun p => if p.1 = k then (k, v) else p))
        = List.find? (fun p => p.1 = k') t := by
  intro t
  induction t with
  | nil => rfl
  | cons q u ih =>
    by_cases hq : q.1 = k
    · have hq' : ¬ q.1 = k' := by rw [hq]; exact fun he => h he.symm
      have hkk' : ¬ k = k' := fun he => h he.symm
      simp only [List.map_cons, if_pos hq]
      rw [List.find?_cons_of_neg _ (by simpa using hkk'),
        List.find?_cons_of_neg _ (by simpa using hq'), ih]
    · simp only [List.map_cons, if_neg hq]
      by_cases hq' : q.1 = k'
      · rw [List.find?_cons_of_pos _ (by simpa using hq'),
          List.find?_cons_of_pos _ (by simpa using hq')]
      · rw [List.find?_cons_of_neg _ (by simpa using hq'),
          List.find?_cons_of_neg _ (by simpa using hq'), ih]

/-- Overwriting insert: looking up any other key is unaffected. -/
theorem hmLookup_hmInsert_ne (m : Smap) (k v k' : Str) (h : ¬ k' = k) :
    hmLookup (hmInsert m k v) k' = hmLookup m k' := by
  unfold hmInsert
  by_cases hany : m.any (fun p => p.1 = k) = true
  · rw [if_pos hany]
    unfold hmLookup
    rw [find?_map_overwrite_ne k v k' h m]
  · rw [if_neg hany]
    unfold hmLookup
    rw [List.find?_append]
    have hkk' : ¬ k = k' := fun he => h he.symm
    have hsing : List.find? (fun p => p.1 = k') [(k, v)] = none := by
      simp [hkk']
    rw [hsing, Option.or_none]

/-- `sessLoop` is the fold of overwriting inserts over the consumed pairs
that pass the UTF-8 check. -/
theorem sessLoop_eq_foldl : ∀ (segs : List (List Nat)) (acc : Smap),
    SessionMiddleware.sessLoop segs acc
      = ((SessionMiddleware.consumedPairs segs).filter
            (fun p => utf8Valid p.1 && utf8Valid p.2)).foldl
          (fun a p => hmInsert a p.1 p.2) acc := by
  intro segs
  induction segs using twoStepList with
  | h0 => intro acc; rfl
  | h1 a => intro acc; rfl
  | h2 k v rest ih =>
    intro acc
    by_cases hk : k = []
    · simp [SessionMiddleware.sessLoop, SessionMiddleware.consumedPairs, hk]
    · by_cases hval : (utf8Valid k && utf8Valid v) = true
      · simp [SessionMiddleware.sessLoop, SessionMiddleware.consumedPairs, hk,
          hval, ih]
      · simp [SessionMiddleware.sessLoop, SessionMiddleware.consumedPairs, hk,
          hval, ih]

/-- Looking up a key after a fold of overwriting inserts finds the value of
the last inserted pair with that key, falling back to the accumulator. -/
theorem hmLookup_foldl (k : Str) :
    ∀ (ps : List (Str × Str)) (acc : Smap),
      hmLookup (ps.foldl (fun a p => hmInsert a p.1 p.2) acc) k
        = ((ps.filter (fun p => p.1 = k)).getLast?.map (fun p => p.2)).or
            (hmLookup acc k) := by
  intro ps
  induction ps with
  | nil => intro acc; simp
  | cons q t ih =>
    intro acc
    rw [List.foldl_cons, ih]
    by_cases hq : q.1 = k
    · rw [List.filter_cons_of_pos (by simpa using hq)]
      cases hft : t.filter (fun p => p.1 = k) with
      | nil =>
        simp [← hq, hmLookup_hmInsert_self]
      | cons r u =>
        have hw : ∃ w, (r :: u).getLast? = some w := by
          cases hgl : (r :: u).getLast? with
          | none => exact absurd hgl (by simp)
          | some w => exact ⟨w, rfl⟩
        obtain ⟨w, hwe⟩ := hw
        rw [List.getLast?_cons_cons, hwe]
        simp
    · rw [List.filter_cons_of_neg (by simpa using hq),
        hmLookup_hmInsert_ne acc q.1 q.2 k (fun he => hq he.symm)]

/-- Claim C10: `decode`'s lookup of any key equals the value of the last
consumed, UTF-8-valid (key, value) pair bearing that key — later pairs in
the decoded byte stream overwrite earlier ones (and a key with no such pair
is absent). -/
theorem decode_last_pair_wins (cs : List Nat) (k : Str) :
    hmLookup (SessionMiddleware.decode cs) k
      = ((SessionMiddleware.consumedValid cs).filter
            (fun p => p.1 = k)).getLast?.map (fun p => p.2) := by
  unfold SessionMiddleware.decode SessionMiddleware.consumedValid
  rw [sessLoop_eq_foldl, hmLookup_foldl]
  simp [hmLookup]

/-- Claim C4: `decode` is total by construction; a base64 failure behaves as
an empty byte buffer (yielding the empty map), and a consumed pair either of
whose segments is invalid UTF-8 is skipped silently while the loop
continues. -/
theorem decode_never_errors :
    (∀ cs : List Nat, b64decode cs = none → SessionMiddleware.decode cs = [])
    ∧ (∀ (k v : List Nat) (rest : List (List Nat)) (acc : Smap),
        ¬ k = [] → ¬ (utf8Valid k && utf8Valid v) = true →
        SessionMiddleware.sessLoop (k :: v :: rest) acc
          = SessionMiddleware.sessLoop rest acc) := by
  constructor
  · intro cs h
    unfold SessionMiddleware.decode
    rw [h]
    rfl
  · intro k v rest acc hk hval
    simp [SessionMiddleware.sessLoop, hk, hval]

/-- Witness for `decode_never_errors`: `!` is not base64, so its decode is
the empty map, and a `0xFF` key segment is invalid UTF-8, so its pair is
skipped. -/
theorem decode_never_errors_witness :
    (b64decode [33] = none ∧ SessionMiddleware.decode [33] = [])
    ∧ SessionMiddleware.sessLoop [[0xff], [97]] [([98], [99])]
        = SessionMiddleware.sessLoop [] [([98], [99])] :=
  ⟨⟨by decide, decode_never_errors.1 [33] (by decide)⟩,
    decode_never_errors.2 [0xff] [97] [] [([98], [99])] (by decide) (by decide)⟩

/-- Claim C6: `encode` appends `0xFF` pad bytes to the serialized pair
buffer exactly until the byte length times 8 is divisible by 6 (the padded
length is the first that satisfies the loop's exit condition), and the
resulting base64 text never ends with `=`. -/
theorem encode_padding_no_eq (m : Smap) :
    (SessionMiddleware.padFF (SessionMiddleware.pairsBytes m)
        = SessionMiddleware.pairsBytes m ++
            List.replicate (SessionMiddleware.padLen
              (SessionMiddleware.pairsBytes m).length) 0xff
      ∧ ((SessionMiddleware.pairsBytes m).length
            + SessionMiddleware.padLen (SessionMiddleware.pairsBytes m).length)
          * 8 % 6 = 0
      ∧ ∀ q, q < SessionMiddleware.padLen (SessionMiddleware.pairsBytes m).length →
          ¬ ((SessionMiddleware.pairsBytes m).length + q) * 8 % 6 = 0)
    ∧ ¬ (SessionMiddleware.encode m).getLast? = some 61 := by
  refine ⟨⟨rfl, (padLen_while_spec _).1, (padLen_while_spec _).2⟩, fun hlast => ?_⟩
  exact not_mem_eqchar_b64encode _ (padFF_length_mod3 _)
    (List.mem_of_getLast?_eq_some hlast)

/-- Witness for `encode_padding_no_eq` at the repository's own test map
`{"a": "bc"}`. -/
theorem encode_padding_no_eq_witness :
    ¬ (SessionMiddleware.encode [([97], [98, 99])]).getLast? = some 61 :=
  (encode_padding_no_eq [([97], [98, 99])]).2

/-- No serialized segment of a separator-free map contains the separator. -/
theorem segsOf_no_ff :
    ∀ m : Smap, (∀ p ∈ m, ¬ 0xff ∈ p.1 ∧ ¬ 0xff ∈ p.2) →
      ∀ l ∈ segsOf m, ¬ 0xff ∈ l := by
  intro m
  induction m with
  | nil => intro _ l hl; simp [segsOf] at hl
  | cons q t ih =>
    intro hff l hl
    obtain ⟨k, v⟩ := q
    have hq := hff (k, v) (by simp)
    simp only [segsOf, List.mem_cons] at hl
    rcases hl with h | h | h
    · exact h ▸ hq.1
    · exact h ▸ hq.2
    · exact ih (fun r hr => hff r (List.mem_cons_of_mem _ hr)) l h

/-- Running the consumption loop on the segments of a map followed by up to
two empty pad segments performs exactly the map's inserts: every real pair is
consumed and inserted, and the pad segments contribute nothing (two pads hit
the empty-key break, a single pad fails the two-segment pattern). -/
theorem sessLoop_segsOf_pads :
    ∀ (m : Smap) (p : Nat) (acc : Smap), p ≤ 2 →
      (∀ q ∈ m, ¬ q.1 = []) →
      (∀ q ∈ m, utf8Valid q.1 = true ∧ utf8Valid q.2 = true) →
      SessionMiddleware.sessLoop (segsOf m ++ List.replicate p []) acc
        = m.foldl (fun a q => hmInsert a q.1 q.2) acc := by
  intro m
  induction m with
  | nil =>
    intro p acc hp _ _
    interval_cases p <;> rfl
  | cons q t ih =>
    intro p acc hp hk hv
    obtain ⟨k, v⟩ := q
    have hk1 : ¬ k = [] := hk (k, v) (by simp)
    have hv1 := hv (k, v) (by simp)
    simp only [segsOf, List.cons_append]
    rw [SessionMiddleware.sessLoop, if_neg hk1,
      if_pos (show (utf8Valid k && utf8Valid v) = true by rw [hv1.1, hv1.2]; rfl),
      ih p (hmInsert acc k v) hp
        (fun r hr => hk r (List.mem_cons_of_mem _ hr))
        (fun r hr => hv r (List.mem_cons_of_mem _ hr))]
    rfl

/-- Folding overwriting inserts over pairs whose keys are distinct and fresh
for the accumulator just appends the pairs in order. -/
theorem foldl_hmInsert_fresh :
    ∀ (m : Smap) (acc : Smap),
      (m.map Prod.fst).Nodup →
      (∀ q ∈ m, acc.any (fun r => r.1 = q.1) = false) →
      m.foldl (fun a q => hmInsert a q.1 q.2) acc = acc ++ m := by
  intro m
  induction m with
  | nil => intro acc _ _; simp
  | cons q t ih =>
    intro acc hnodup hfresh
    rw [List.map_cons] at hnodup
    have hnodup' := List.nodup_cons.mp hnodup
    have hqf : acc.any (fun r => r.1 = q.1) = false := hfresh q (by simp)
    have hins : hmInsert acc q.1 q.2 = acc ++ [q] := by
      unfold hmInsert
      rw [if_neg (by simp [hqf])]
    rw [List.foldl_cons, hins,
      ih (acc ++ [q]) hnodup'.2 ?fresh]
    · simp
    case fresh =>
      intro r hr
      have hacc : acc.any (fun s => s.1 = r.1) = false :=
        hfresh r (List.mem_cons_of_mem _ hr)
      have hqr : ¬ q.1 = r.1 := fun he =>
        hnodup'.1 (he ▸ List.mem_map_of_mem Prod.fst hr)
      simp [List.any_append, hacc, hqr]

/-- Claim C1: `decode` inverts `encode` on any map whose keys and values are
valid UTF-8 strings free of the `0xFF` byte and whose keys are non-empty
(map distinctness of keys and genuine bytes being intrinsic to Rust's
`HashMap<String, String>`). -/
theorem decode_encode_roundtrip (m : Smap)
    (hnodup : (m.map Prod.fst).Nodup)
    (hkeys : ∀ p ∈ m, ¬ p.1 = [])
    (hutf : ∀ p ∈ m, utf8Valid p.1 = true ∧ utf8Valid p.2 = true)
    (hff : ∀ p ∈ m, ¬ 0xff ∈ p.1 ∧ ¬ 0xff ∈ p.2)
    (hbytes : ∀ p ∈ m, (∀ b ∈ p.1, b < 256) ∧ (∀ b ∈ p.2, b < 256)) :
    SessionMiddleware.decode (SessionMiddleware.encode m) = m := by
  cases m with
  | nil => rfl
  | cons q t =>
    have hlt : ∀ x ∈ SessionMiddleware.padFF (SessionMiddleware.pairsBytes (q :: t)),
        x < 256 := by
      intro x hx
      rcases List.mem_append.mp hx with h | h
      · exact pairsBytes_lt (q :: t) hbytes x h
      · rw [List.eq_of_mem_replicate h]; omega
    have hb64 := b64decode_b64encode _
      (padFF_length_mod3 (SessionMiddleware.pairsBytes (q :: t))) hlt
    have hsegsne : ¬ segsOf (q :: t) = [] := by
      obtain ⟨k, v⟩ := q; simp [segsOf]
    have hicalc : SessionMiddleware.padFF (SessionMiddleware.pairsBytes (q :: t))
        = List.intercalate [0xff] (segsOf (q :: t) ++
            List.replicate (SessionMiddleware.padLen
              (SessionMiddleware.pairsBytes (q :: t)).length) []) := by
      rw [intercalate_append_replicate_empty 0xff _ hsegsne,
        ← pairsBytes_eq_intercalate]
      rfl
    have hnoff : ∀ l ∈ segsOf (q :: t) ++
        List.replicate (SessionMiddleware.padLen
          (SessionMiddleware.pairsBytes (q :: t)).length) [],
        ¬ (0xff : Nat) ∈ l := by
      intro l hl
      rcases List.mem_append.mp hl with h | h
      · exact segsOf_no_ff (q :: t) hff l h
      · rw [List.eq_of_mem_replicate h]; simp
    have hne2 : ¬ (segsOf (q :: t) ++
        List.replicate (SessionMiddleware.padLen
          (SessionMiddleware.pairsBytes (q :: t)).length) []) = [] := by
      intro h
      exact hsegsne (List.append_eq_nil.mp h).1
    have hsplit := List.splitOn_intercalate (α := Nat) _ 0xff hnoff hne2
    unfold SessionMiddleware.encode SessionMiddleware.decode
    rw [hb64, Option.getD_some, hicalc, hsplit,
      sessLoop_segsOf_pads (q :: t) _ []
        (by unfold SessionMiddleware.padLen; omega) hkeys hutf,
      foldl_hmInsert_fresh (q :: t) [] hnodup (fun r _ => rfl)]
    rfl

/-- Witness for `decode_encode_roundtrip` at the repository's own test map
`{"a": "bc"}`. -/
theorem decode_encode_roundtrip_witness :
    (([([97], [98, 99])] : Smap).map Prod.fst).Nodup
    ∧ SessionMiddleware.decode (SessionMiddleware.encode [([97], [98, 99])])
        = [([97], [98, 99])] :=
  ⟨by decide, decode_encode_roundtrip [([97], [98, 99])] (by decide) (by decide)
    (by decide) (by decide) (by decide)⟩

end ConduitCookie
